import Mathlib

/-!
Shallow embedding of the branch-comparison and conflict-diff engine of
helmutkemper/mergecomplex (file src/internal/git/git.go), together with
theorems about its behaviour.

File contents are modelled as Lean strings (lists of characters); Go's
strings.Split(s, "\x7bnewline\x7d") is modelled by the recursive
function splitLines below, which agrees with it on every input
(in particular splitLines of the empty string is the one-element list
holding the empty line, exactly as in Go).
-/

namespace Mergecomplex

/-- Model of strings.Split(s, newline): splits a character list at every
newline character; the empty input yields one empty line. -/
def splitLines : List Char → List (List Char)
  | [] => [[]]
  | c :: rest =>
    if c = '\n' then [] :: splitLines rest
    else
      match splitLines rest with
      | [] => [[c]]
      | l :: ls => (c :: l) :: ls

/-- The literal marker line written before the ours/local side. -/
def markerOurs : List Char := "<<<<<<< HEAD".data

/-- The literal separator marker line. -/
def markerSep : List Char := "=======".data

/-- The literal marker line closing the theirs/branch side. -/
def markerTheirs : List Char := ">>>>>>> branch".data

/-- One iteration of the loop body of generateDiff (git.go lines 724-756):
the list of lines emitted at index i. branchLine and localLine default to
the empty string when the index is out of range, exactly as in the source. -/
def segLines (branchLines localLines : List (List Char)) (i : Nat) : List (List Char) :=
  let branchLine := branchLines.getD i []
  let localLine := localLines.getD i []
  if branchLines.length ≤ i then [localLine]
  else if localLines.length ≤ i then [branchLine]
  else if branchLine = localLine then [localLine]
  else [markerOurs, localLine, markerSep, branchLine, markerTheirs]

/-- generateDiff of git.go (lines 713-759) on character lists: split both
inputs into lines, walk indices 0..maxLen-1, and concatenate every emitted
line followed by a newline, in loop order. -/
def generateDiffL (branchContent localContent : List Char) : List Char :=
  let branchLines := splitLines branchContent
  let localLines := splitLines localContent
  let maxLen := max branchLines.length localLines.length
  ((List.range maxLen).map
    (fun i => ((segLines branchLines localLines i).map (fun l => l ++ ['\n'])).flatten)).flatten

/-- generateDiff of git.go at the String type (the source signature
func generateDiff(branchContent, localContent string) string). -/
def generateDiff (branchContent localContent : String) : String :=
  ⟨generateDiffL branchContent.data localContent.data⟩

/-- Number of lines of a string, in the sense the algorithm uses
(strings.Split on newline). -/
def countLines (s : String) : Nat := (splitLines s.data).length

/-- All emitted lines of generateDiffL, without the appended newlines. -/
def emittedLines (branchLines localLines : List (List Char)) : List (List Char) :=
  ((List.range (max branchLines.length localLines.length)).map
    (segLines branchLines localLines)).flatten

/-- Action tags of raw tree-diff records as produced by the go-git merkletrie
differ, the external Version Snapshot Provider. -/
inductive MerkleAction
  | Insert
  | Modify
  | Delete
deriving DecidableEq

/-- A raw change record of targetTree.Diff(baseTree): the old-side (From) and
new-side (To) path names and the computed action. action none models
change.Action() returning an error, which every loop in git.go skips. -/
structure RawChange where
  fromName : String
  toName : String
  action : Option MerkleAction
deriving DecidableEq

/-- FileChange of git.go (lines 17-20). -/
structure FileChange where
  Path : String
  Action : String
deriving DecidableEq

/-- A tree snapshot: (path, contents) entries in tree order. A contents value
of none models a file whose Contents() call fails. -/
structure Tree where
  files : List (String × Option String)
deriving DecidableEq

/-- tree.File(path) of go-git: some contents-result when the path exists in
the tree, none when File returns an error (path absent). -/
def Tree.file (t : Tree) (p : String) : Option (Option String) :=
  (t.files.find? (fun e => e.1 == p)).map (fun e => e.2)

/-- A commit object; commit.Tree() may fail. -/
structure Commit where
  tree : Option Tree

/-- Model of an opened go-git repository, the external snapshot provider:
the reference list for the branch-listing family, reference resolution by
full ref name, commit lookup by hash, and the tree differ. A none result
models the corresponding go-git call returning an error. -/
structure Repo where
  references : Option (List String)
  reference : String → Option Nat
  commitObject : Nat → Option Commit
  diffFn : Tree → Tree → Option (List RawChange)

/-- Control of git.go (lines 22-25): the possibly-unbound repository handle.
The progress writer plays no part in the modelled operations and is omitted. -/
structure Control where
  repository : Option Repo

/-- Errors returned by the modelled operations, one constructor per distinct
fmt.Errorf site they can reach. -/
inductive GitError
  | notInitialized
  | refsError
  | refError (branch : String)
  | commitError (branch : String)
  | treeError (branch : String)
  | diffError
  | fileDeletedOrUnchanged
  | readFileError (name : String)
  | baseContentError
  | targetContentError
  | contentError (name : String)
  | mkdirError (dir : String)
  | writeError (path : String)
  | fileNotInDiff (name : String)
deriving DecidableEq

/-- Outcome of an operation returning a value of type a: a normal value, a
returned error, or a run-time panic (the nil-pointer dereference that the Go
source performs when a method is called on an unbound repository). -/
inductive Res (α : Type)
  | ok (val : α)
  | err (e : GitError)
  | panicked
deriving DecidableEq

def Res.map {α β : Type} (f : α → β) : Res α → Res β
  | .ok v => .ok (f v)
  | .err e => .err e
  | .panicked => .panicked

/-- The full ref name refs/heads/name, as built by fmt.Sprintf in git.go. -/
def headsRef (name : String) : String := "refs/heads/" ++ name

/-- The branch-resolution preamble repeated verbatim in GetModifiedFiles,
GetAllChangedFiles, GetFileChanges, DownloadModifiedFiles and
DiffSpecificFile: resolve the target ref, the base ref, both commits, both
trees, then diff the target tree against the base tree. Order of the error
checks follows the source. -/
def Repo.resolveDiff (repo : Repo) (branchName branchBase : String) :
    Except GitError (Tree × Tree × List RawChange) :=
  match repo.reference (headsRef branchName) with
  | none => .error (.refError branchName)
  | some targetHash =>
    match repo.reference (headsRef branchBase) with
    | none => .error (.refError branchBase)
    | some baseHash =>
      match repo.commitObject targetHash with
      | none => .error (.commitError branchName)
      | some targetCommit =>
        match repo.commitObject baseHash with
        | none => .error (.commitError branchBase)
        | some baseCommit =>
          match targetCommit.tree with
          | none => .error (.treeError branchName)
          | some targetTree =>
            match baseCommit.tree with
            | none => .error (.treeError branchBase)
            | some baseTree =>
              match repo.diffFn targetTree baseTree with
              | none => .error .diffError
              | some changes => .ok (targetTree, baseTree, changes)

/-- Per-record step of the GetModifiedFiles loop (git.go 214-227): Insert and
Modify append the new-side path, everything else (including an action error)
leaves the accumulator unchanged. -/
def modifiedFilesStep (acc : List String) (c : RawChange) : List String :=
  match c.action with
  | none => acc
  | some .Insert => acc ++ [c.toName]
  | some .Modify => acc ++ [c.toName]
  | some .Delete => acc

def modifiedFilesLoop (changes : List RawChange) : List String :=
  changes.foldl modifiedFilesStep []

/-- Per-record step of the GetAllChangedFiles loop (git.go 421-436). -/
def allChangedFilesStep (acc : List String) (c : RawChange) : List String :=
  match c.action with
  | none => acc
  | some .Insert => acc ++ [c.toName]
  | some .Modify => acc ++ [c.toName]
  | some .Delete => acc ++ [c.fromName]

def allChangedFilesLoop (changes : List RawChange) : List String :=
  changes.foldl allChangedFilesStep []

/-- Per-record step of the GetFileChanges loop (git.go 491-518). -/
def fileChangesStep (acc : List FileChange) (c : RawChange) : List FileChange :=
  match c.action with
  | none => acc
  | some .Insert => acc ++ [⟨c.toName, "added"⟩]
  | some .Modify => acc ++ [⟨c.toName, "modified"⟩]
  | some .Delete => acc ++ [⟨c.fromName, "deleted"⟩]

def fileChangesLoop (changes : List RawChange) : List FileChange :=
  changes.foldl fileChangesStep []

/-- Ref-name predicate ref.Name().IsBranch(). -/
def isBranchRef (r : String) : Bool := r.startsWith "refs/heads/"

/-- Ref-name predicate ref.Name().IsRemote(). -/
def isRemoteRef (r : String) : Bool := r.startsWith "refs/remotes/"

/-- ref.Name().Short(): the ref name without its refs/heads/ or refs/remotes/
prefix. -/
def shortName (r : String) : String :=
  if r.startsWith "refs/heads/" then r.drop 11
  else if r.startsWith "refs/remotes/" then r.drop 13
  else r

/-- ListBranches of git.go (lines 70-99): nil check, then the branch refs in
order, shortened. -/
def Control.ListBranches (e : Control) : Res (List String) :=
  match e.repository with
  | none => .err .notInitialized
  | some repo =>
    match repo.references with
    | none => .err .refsError
    | some refs => .ok ((refs.filter isBranchRef).map shortName)

/-- ListAllBranches of git.go (lines 104-130). -/
def Control.ListAllBranches (e : Control) : Res (List String) :=
  match e.repository with
  | none => .err .notInitialized
  | some repo =>
    match repo.references with
    | none => .err .refsError
    | some refs => .ok ((refs.filter (fun r => isBranchRef r || isRemoteRef r)).map shortName)

/-- ListLocalBranches of git.go (lines 134-136), an alias of ListBranches. -/
def Control.ListLocalBranches (e : Control) : Res (List String) :=
  e.ListBranches

/-- ListRemoteBranches of git.go (lines 140-166). -/
def Control.ListRemoteBranches (e : Control) : Res (List String) :=
  match e.repository with
  | none => .err .notInitialized
  | some repo =>
    match repo.references with
    | none => .err .refsError
    | some refs => .ok ((refs.filter isRemoteRef).map shortName)

/-- GetModifiedFiles of git.go (lines 171-230). The source performs no nil
check here: with no repository bound the first method call dereferences a nil
pointer, a panic. -/
def Control.GetModifiedFiles (e : Control) (branchName branchBase : String) :
    Res (List String) :=
  match e.repository with
  | none => .panicked
  | some repo =>
    match repo.resolveDiff branchName branchBase with
    | .error er => .err er
    | .ok (_, _, changes) => .ok (modifiedFilesLoop changes)

/-- GetAllChangedFiles of git.go (lines 374-439), with the nil check of line
375. -/
def Control.GetAllChangedFiles (e : Control) (branchName baseBranch : String) :
    Res (List String) :=
  match e.repository with
  | none => .err .notInitialized
  | some repo =>
    match repo.resolveDiff branchName baseBranch with
    | .error er => .err er
    | .ok (_, _, changes) => .ok (allChangedFilesLoop changes)

/-- GetFileChanges of git.go (lines 444-521), with the nil check of line 445. -/
def Control.GetFileChanges (e : Control) (branchName baseBranch : String) :
    Res (List FileChange) :=
  match e.repository with
  | none => .err .notInitialized
  | some repo =>
    match repo.resolveDiff branchName baseBranch with
    | .error er => .err er
    | .ok (_, _, changes) => .ok (fileChangesLoop changes)

/-- Ambient filesystem behaviour seen by DownloadModifiedFiles: whether
os.MkdirAll on a directory, or os.WriteFile on a path, fails. -/
structure FS where
  mkdirFails : String → Bool
  writeFails : String → Bool

/-- filepath.Join(destDir, fileName) for the slash-separated paths used here. -/
def joinPath (dir file : String) : String := dir ++ "/" ++ file

/-- filepath.Dir for the slash-containing paths built by joinPath: everything
before the last separator. -/
def dirOf (p : String) : String := String.intercalate "/" ((p.splitOn "/").dropLast)

/-- Outcome of DownloadModifiedFiles: a panic, or the returned (downloaded,
error) pair together with the files (path, content) physically written. -/
inductive DlRes
  | panicked
  | result (downloaded : List String) (written : List (String × String)) (er : Option GitError)
deriving DecidableEq

/-- Loop of DownloadModifiedFiles (git.go 570-608): skip records whose action
is undeterminable or is not Insert/Modify; read the file from the target
tree; create the destination directory and write the file; append the
destination path. On any failure the source returns the downloaded list
collected so far together with the error, leaving the files already written
in place. The written accumulator records the files put on disk. -/
def downloadLoop (targetTree : Tree) (destDir : String) (fs : FS) :
    List RawChange → List String → List (String × String)
      → List String × List (String × String) × Option GitError
  | [], downloaded, written => (downloaded, written, none)
  | c :: rest, downloaded, written =>
    match c.action with
    | none => downloadLoop targetTree destDir fs rest downloaded written
    | some action =>
      if action ≠ .Insert ∧ action ≠ .Modify then
        downloadLoop targetTree destDir fs rest downloaded written
      else
        match targetTree.file c.toName with
        | none => (downloaded, written, some (.readFileError c.toName))
        | some none => (downloaded, written, some (.contentError c.toName))
        | some (some content) =>
          if fs.mkdirFails (dirOf (joinPath destDir c.toName)) then
            (downloaded, written, some (.mkdirError (dirOf (joinPath destDir c.toName))))
          else if fs.writeFails (joinPath destDir c.toName) then
            (downloaded, written, some (.writeError (joinPath destDir c.toName)))
          else
            downloadLoop targetTree destDir fs rest
              (downloaded ++ [joinPath destDir c.toName])
              (written ++ [(joinPath destDir c.toName, content)])

/-- DownloadModifiedFiles of git.go (lines 525-611). The initial
os.RemoveAll(destDir) clears the destination and its error is discarded; no
nil check precedes the first dereference of the repository. -/
def Control.DownloadModifiedFiles (e : Control) (branchName branchBase destDir : String)
    (fs : FS) : DlRes :=
  match e.repository with
  | none => .panicked
  | some repo =>
    match repo.resolveDiff branchName branchBase with
    | .error er => .result [] [] (some er)
    | .ok (targetTree, _, changes) =>
      match downloadLoop targetTree destDir fs changes [] [] with
      | (downloaded, written, er) => .result downloaded written er

/-- Loop of DiffSpecificFile (git.go 657-705): walk the change records in
order, skipping those whose action is undeterminable and those whose new-side
name differs from fileName; reject the first match if its action is neither
Insert nor Modify; read the base-side content, treating an absent base file
as the empty string; read the target-side content (which must exist); and
return the conflict diff keyed by the file name. Falling off the end is the
file-not-found error of line 707. -/
def diffFileLoop (targetTree baseTree : Tree) (fileName : String) :
    List RawChange → Except GitError (List (String × String))
  | [] => .error (.fileNotInDiff fileName)
  | c :: rest =>
    match c.action with
    | none => diffFileLoop targetTree baseTree fileName rest
    | some action =>
      if c.toName ≠ fileName then diffFileLoop targetTree baseTree fileName rest
      else if action ≠ .Insert ∧ action ≠ .Modify then .error .fileDeletedOrUnchanged
      else
        match baseTree.file fileName with
        | some none => .error .baseContentError
        | none => -- absent from the base tree: baseContent stays ""
          match targetTree.file fileName with
          | none => .error (.readFileError fileName)
          | some none => .error .targetContentError
          | some (some targetContent) => .ok [(fileName, generateDiff "" targetContent)]
        | some (some baseContent) =>
          match targetTree.file fileName with
          | none => .error (.readFileError fileName)
          | some none => .error .targetContentError
          | some (some targetContent) => .ok [(fileName, generateDiff baseContent targetContent)]

/-- DiffSpecificFile of git.go (lines 615-708). No nil check precedes the
first dereference of the repository. -/
def Control.DiffSpecificFile (e : Control) (branchName branchBase fileName : String) :
    Res (List (String × String)) :=
  match e.repository with
  | none => .panicked
  | some repo =>
    match repo.resolveDiff branchName branchBase with
    | .error er => .err er
    | .ok (targetTree, baseTree, changes) =>
      match diffFileLoop targetTree baseTree fileName changes with
      | .error er => .err er
      | .ok m => .ok m

/-- Classification rule as the specification words it (section 4.3 step 4):
Insert maps to added with the new path, Modify to modified with the new path,
Delete to deleted with the old path, and a record whose action cannot be
determined maps to nothing (it is skipped, not surfaced as an error). This is
the spec-side definition of refinement claim C6. -/
def classifySpec (c : RawChange) : Option FileChange :=
  match c.action with
  | some .Insert => some ⟨c.toName, "added"⟩
  | some .Modify => some ⟨c.toName, "modified"⟩
  | some .Delete => some ⟨c.fromName, "deleted"⟩
  | none => none

/-- Concrete test repository: branch t adds newfile.txt (content x) relative
to branch b, which lacks it. -/
def treeAddedTarget : Tree := ⟨[("newfile.txt", some "x")]⟩

def treeAddedBase : Tree := ⟨[]⟩

def repoAdded : Repo :=
  ⟨some ["refs/heads/t", "refs/heads/b"],
   fun n => if n = "refs/heads/t" then some 1
            else if n = "refs/heads/b" then some 2 else none,
   fun h => if h = 1 then some ⟨some treeAddedTarget⟩
            else if h = 2 then some ⟨some treeAddedBase⟩ else none,
   fun _ _ => some [⟨"", "newfile.txt", some .Insert⟩]⟩

/-- Concrete test repository: branch t deletes del.txt relative to branch b. -/
def treeDeletedTarget : Tree := ⟨[("keep.txt", some "k")]⟩

def treeDeletedBase : Tree := ⟨[("keep.txt", some "k"), ("del.txt", some "d")]⟩

def repoDeleted : Repo :=
  ⟨some ["refs/heads/t", "refs/heads/b"],
   fun n => if n = "refs/heads/t" then some 1
            else if n = "refs/heads/b" then some 2 else none,
   fun h => if h = 1 then some ⟨some treeDeletedTarget⟩
            else if h = 2 then some ⟨some treeDeletedBase⟩ else none,
   fun _ _ => some [⟨"del.txt", "del.txt", some .Delete⟩]⟩

/-- Concrete test repository: branch t adds a.txt (readable) and bad.txt
(whose content read fails) relative to branch b. -/
def treeFailTarget : Tree := ⟨[("a.txt", some "x"), ("bad.txt", none)]⟩

def treeFailBase : Tree := ⟨[]⟩

def repoFail : Repo :=
  ⟨some ["refs/heads/t", "refs/heads/b"],
   fun n => if n = "refs/heads/t" then some 1
            else if n = "refs/heads/b" then some 2 else none,
   fun h => if h = 1 then some ⟨some treeFailTarget⟩
            else if h = 2 then some ⟨some treeFailBase⟩ else none,
   fun _ _ => some [⟨"", "a.txt", some .Insert⟩, ⟨"", "bad.txt", some .Insert⟩]⟩

/-- A filesystem on which directory creation and writes always succeed. -/
def fsOk : FS := ⟨fun _ => false, fun _ => false⟩

theorem splitLines_cons_newline (rest : List Char) :
    splitLines ('\n' :: rest) = [] :: splitLines rest := by
  simp [splitLines]

theorem splitLines_cons_other (c : Char) (rest : List Char) (h : ¬c = '\n') :
    splitLines (c :: rest)
      = match splitLines rest with
        | [] => [[c]]
        | l :: ls => (c :: l) :: ls := by
  simp [splitLines, h]

theorem splitLines_ne_nil (s : List Char) : splitLines s ≠ [] := by
  cases s with
  | nil => simp [splitLines]
  | cons c rest =>
    by_cases h : c = '\n'
    · subst h; rw [splitLines_cons_newline]; simp
    · rw [splitLines_cons_other c rest h]
      cases splitLines rest <;> simp

theorem length_splitLines_pos (s : List Char) : 0 < (splitLines s).length :=
  List.length_pos.mpr (splitLines_ne_nil s)

/-- Joining the split lines with trailing newlines appends exactly one
newline to the original string. -/
theorem join_splitLines (s : List Char) :
    ((splitLines s).map (fun l => l ++ ['\n'])).flatten = s ++ ['\n'] := by
  induction s with
  | nil => simp [splitLines]
  | cons c rest ih =>
    by_cases h : c = '\n'
    · subst h
      rw [splitLines_cons_newline]
      simp only [List.map_cons, List.flatten_cons, List.nil_append]
      rw [ih]
      rfl
    · rw [splitLines_cons_other c rest h]
      cases hr : splitLines rest with
      | nil => exact absurd hr (splitLines_ne_nil rest)
      | cons l ls =>
        rw [hr] at ih
        simp only [List.map_cons, List.flatten_cons] at ih ⊢
        simp only [List.cons_append]
        rw [List.append_assoc] at ih ⊢
        rw [ih]

/-- Mapping a function over the elements of a list, accessed by index with
a default, is just mapping over the list. -/
theorem range_map_getD {α β : Type} (l : List α) (d : α) (g : α → β) :
    (List.range l.length).map (fun i => g (l.getD i d)) = l.map g := by
  induction l with
  | nil => simp
  | cons a rest ih =>
    have hcomp : ∀ i : Nat, g ((a :: rest).getD (i + 1) d) = g (rest.getD i d) := by
      intro i
      rfl
    rw [List.length_cons, List.range_succ_eq_map, List.map_cons, List.map_map]
    simp only [Function.comp_def, Nat.succ_eq_add_one, hcomp]
    rw [ih]
    rfl

/-- No line produced by splitLines contains a newline character. -/
theorem splitLines_no_newline (s : List Char) :
    ∀ l ∈ splitLines s, '\n' ∉ l := by
  induction s with
  | nil =>
    intro l hl
    simp only [splitLines, List.mem_singleton] at hl
    subst hl
    exact List.not_mem_nil _
  | cons c rest ih =>
    intro l hl
    by_cases h : c = '\n'
    · subst h
      rw [splitLines_cons_newline] at hl
      rcases List.mem_cons.mp hl with rfl | hl
      · exact List.not_mem_nil _
      · exact ih l hl
    · rw [splitLines_cons_other c rest h] at hl
      cases hr : splitLines rest with
      | nil => exact absurd hr (splitLines_ne_nil rest)
      | cons m ms =>
        rw [hr] at hl
        rcases List.mem_cons.mp hl with rfl | hmem
        · intro hin
          rcases List.mem_cons.mp hin with h1 | h1
          · exact h h1.symm
          · exact ih m (by rw [hr]; exact List.mem_cons_self m ms) h1
        · exact ih l (by rw [hr]; exact List.mem_cons.mpr (Or.inr hmem))

theorem splitLines_append_newline (l : List Char) (t : List Char) :
    '\n' ∉ l → splitLines (l ++ '\n' :: t) = l :: splitLines t := by
  induction l with
  | nil =>
    intro _
    rw [List.nil_append, splitLines_cons_newline]
  | cons c cl ih =>
    intro h
    have hc : ¬c = '\n' := fun hh => h (hh ▸ List.mem_cons_self c cl)
    rw [List.cons_append, splitLines_cons_other c _ hc,
      ih (fun hm => h (List.mem_cons.mpr (Or.inr hm)))]

/-- Splitting a newline-joined list of newline-free lines recovers the lines,
plus one final empty line coming from the trailing newline. -/
theorem splitLines_flattenNl (ls : List (List Char)) (h : ∀ l ∈ ls, '\n' ∉ l) :
    splitLines ((ls.map (fun l => l ++ ['\n'])).flatten) = ls ++ [[]] := by
  induction ls with
  | nil => simp [splitLines]
  | cons a t ih =>
    rw [List.map_cons, List.flatten_cons, List.append_assoc, List.singleton_append,
      splitLines_append_newline a _ (h a (List.mem_cons_self a t)),
      ih (fun l hl => h l (List.mem_cons.mpr (Or.inr hl)))]
    rfl

theorem map_flatten_flatten (f : List Char → List Char) (segs : List (List (List Char))) :
    (segs.map (fun seg => (seg.map f).flatten)).flatten = ((segs.flatten).map f).flatten := by
  induction segs with
  | nil => rfl
  | cons s t ih =>
    simp only [List.map_cons, List.flatten_cons, List.map_append, List.flatten_append, ih]

/-- generateDiffL is the newline-joined concatenation of the per-index
emitted lines. -/
theorem generateDiffL_eq_emitted (a b : List Char) :
    generateDiffL a b
      = ((emittedLines (splitLines a) (splitLines b)).map (fun l => l ++ ['\n'])).flatten := by
  simp only [generateDiffL, emittedLines]
  rw [← map_flatten_flatten, List.map_map]
  rfl

theorem segLines_ne_nil (bl ll : List (List Char)) (i : Nat) : segLines bl ll i ≠ [] := by
  simp only [segLines]
  split
  · simp
  · split
    · simp
    · split <;> simp

theorem mem_segLines (bl ll : List (List Char)) (i : Nat) (l : List Char)
    (h : l ∈ segLines bl ll i) :
    l = bl.getD i [] ∨ l = ll.getD i [] ∨ l = markerOurs ∨ l = markerSep ∨ l = markerTheirs := by
  simp only [segLines] at h
  split at h
  · simp only [List.mem_singleton] at h; exact Or.inr (Or.inl h)
  · split at h
    · simp only [List.mem_singleton] at h; exact Or.inl h
    · split at h
      · simp only [List.mem_singleton] at h; exact Or.inr (Or.inl h)
      · simp only [List.mem_cons, List.not_mem_nil, or_false] at h
        rcases h with h | h | h | h | h
        · exact Or.inr (Or.inr (Or.inl h))
        · exact Or.inr (Or.inl h)
        · exact Or.inr (Or.inr (Or.inr (Or.inl h)))
        · exact Or.inl h
        · exact Or.inr (Or.inr (Or.inr (Or.inr h)))

theorem getD_splitLines_no_newline (s : List Char) (i : Nat) :
    '\n' ∉ (splitLines s).getD i [] := by
  by_cases h : i < (splitLines s).length
  · have hm : (splitLines s).getD i [] ∈ splitLines s := by
      rw [List.getD_eq_getElem _ _ h]
      exact List.getElem_mem h
    exact splitLines_no_newline s _ hm
  · rw [List.getD_eq_default _ _ (Nat.le_of_not_lt h)]
    exact List.not_mem_nil _

theorem emittedLines_no_newline (a b : List Char) :
    ∀ l ∈ emittedLines (splitLines a) (splitLines b), '\n' ∉ l := by
  intro l hl
  simp only [emittedLines, List.mem_flatten, List.mem_map] at hl
  obtain ⟨seg, ⟨i, _, hseg⟩, hlseg⟩ := hl
  rcases mem_segLines _ _ i l (hseg ▸ hlseg) with h | h | h | h | h
  · exact h ▸ getD_splitLines_no_newline a i
  · exact h ▸ getD_splitLines_no_newline b i
  · subst h; decide
  · subst h; decide
  · subst h; decide

theorem length_flatten_ge {α : Type} (L : List (List α)) (h : ∀ x ∈ L, x ≠ []) :
    L.length ≤ L.flatten.length := by
  induction L with
  | nil => simp
  | cons a t ih =>
    rw [List.flatten_cons, List.length_append, List.length_cons]
    have ha : 0 < a.length := List.length_pos.mpr (h a (List.mem_cons_self a t))
    have ht := ih (fun x hx => h x (List.mem_cons.mpr (Or.inr hx)))
    omega

theorem length_emittedLines (bl ll : List (List Char)) :
    max bl.length ll.length ≤ (emittedLines bl ll).length := by
  have h := length_flatten_ge ((List.range (max bl.length ll.length)).map (segLines bl ll))
    (by
      intro x hx
      simp only [List.mem_map] at hx
      obtain ⟨i, _, hi⟩ := hx
      exact hi ▸ segLines_ne_nil bl ll i)
  rw [List.length_map, List.length_range] at h
  exact h

theorem emittedLines_ne_nil (bl ll : List (List Char)) (h : 0 < bl.length) :
    emittedLines bl ll ≠ [] := by
  have hlen := length_emittedLines bl ll
  have : 0 < (emittedLines bl ll).length := by omega
  exact List.length_pos.mp this

theorem flattenNl_getLast (ls : List (List Char)) (h : ls ≠ []) :
    ((ls.map (fun l => l ++ ['\n'])).flatten ≠ [])
    ∧ ((ls.map (fun l => l ++ ['\n'])).flatten).getLast? = some '\n' := by
  induction ls with
  | nil => exact absurd rfl h
  | cons a t ih =>
    cases t with
    | nil =>
      refine ⟨?_, ?_⟩
      · show (a ++ ['\n']) ++ [] ≠ []
        simp
      · show ((a ++ ['\n']) ++ []).getLast? = some '\n'
        rw [List.append_nil]
        exact List.getLast?_concat _
    | cons b t' =>
      have ih' := ih (by simp)
      refine ⟨?_, ?_⟩
      · show (a ++ ['\n']) ++ _ ≠ []
        simp
      · show ((a ++ ['\n']) ++ _).getLast? = some '\n'
        rw [List.getLast?_append_of_ne_nil _ ih'.1]
        exact ih'.2

theorem segLines_self (l : List (List Char)) (i : Nat) (h : i < l.length) :
    segLines l l i = [l.getD i []] := by
  simp only [segLines]
  rw [if_neg (Nat.not_le.mpr h), if_neg (Nat.not_le.mpr h)]
  simp

theorem generateDiffL_self (s : List Char) : generateDiffL s s = s ++ ['\n'] := by
  simp only [generateDiffL, Nat.max_self]
  have h1 : (List.range (splitLines s).length).map
      (fun i => ((segLines (splitLines s) (splitLines s) i).map (fun l => l ++ ['\n'])).flatten)
      = (List.range (splitLines s).length).map (fun i => (splitLines s).getD i [] ++ ['\n']) := by
    apply List.map_congr_left
    intro i hi
    rw [segLines_self _ _ (List.mem_range.mp hi)]
    simp
  rw [h1, range_map_getD (splitLines s) [] (fun l => l ++ ['\n']), join_splitLines]

/-- C1 counterexample: generateDiff applied to two identical inputs does not
return the input unchanged; at the explicit input of two empty strings it
returns a single newline, not the empty string. -/
theorem generateDiff_identity_cex : generateDiff "" "" ≠ "" := by decide

/-- C1 (amended): generateDiff applied to two identical inputs returns the
input with exactly one newline appended (every line is emitted verbatim once
and no conflict block is produced): generateDiff a a = a ++ newline. -/
theorem generateDiff_self_eq_append_newline (a : String) :
    generateDiff a a = a ++ "\n" := by
  obtain ⟨l⟩ := a
  show String.mk (generateDiffL l l) = String.mk (l ++ ['\n'])
  rw [generateDiffL_self]

/-- C10: for every pair of inputs the generated diff is a non-empty string
ending in a newline character (every emitted segment is newline-terminated and
at least one segment is emitted), and on two empty inputs it is exactly one
newline. -/
theorem generateDiff_nonempty_trailing_newline :
    (∀ a b : String, generateDiff a b ≠ "" ∧ (generateDiff a b).data.getLast? = some '\n')
    ∧ generateDiff "" "" = "\n" := by
  refine ⟨?_, by decide⟩
  intro a b
  have hne : emittedLines (splitLines a.data) (splitLines b.data) ≠ [] :=
    emittedLines_ne_nil _ _ (length_splitLines_pos a.data)
  have h := flattenNl_getLast _ hne
  have hdata : (generateDiff a b).data
      = ((emittedLines (splitLines a.data) (splitLines b.data)).map
          (fun l => l ++ ['\n'])).flatten := generateDiffL_eq_emitted a.data b.data
  constructor
  · intro hcontra
    have hnil : (generateDiff a b).data = [] := congrArg String.data hcontra
    rw [hdata] at hnil
    exact h.1 hnil
  · rw [hdata]
    exact h.2

/-- C4: at every line index where both inputs have a line and the two lines
differ, generateDiff emits exactly the five-line conflict block (the literal
ours marker, the local/ours line, the literal separator, the branch/theirs
line, the literal closing marker), one block per differing index; the whole
diff is the concatenation of the per-index segments, so two adjacent differing
indices yield two separate blocks. -/
theorem generateDiff_conflict_block (a b : String) (i : Nat)
    (h1 : i < (splitLines a.data).length) (h2 : i < (splitLines b.data).length)
    (hne : (splitLines a.data).getD i [] ≠ (splitLines b.data).getD i []) :
    segLines (splitLines a.data) (splitLines b.data) i
      = [markerOurs, (splitLines b.data).getD i [], markerSep,
         (splitLines a.data).getD i [], markerTheirs]
    ∧ (generateDiff a b).data
      = ((emittedLines (splitLines a.data) (splitLines b.data)).map
          (fun l => l ++ ['\n'])).flatten := by
  constructor
  · simp only [segLines]
    rw [if_neg (Nat.not_le.mpr h1), if_neg (Nat.not_le.mpr h2), if_neg hne]
  · exact generateDiffL_eq_emitted a.data b.data

/-- C4 witness: differing single-line inputs produce the conflict block. -/
theorem generateDiff_conflict_block_witness :
    segLines (splitLines ("y" : String).data) (splitLines ("z" : String).data) 0
      = [markerOurs, (splitLines ("z" : String).data).getD 0 [], markerSep,
         (splitLines ("y" : String).data).getD 0 [], markerTheirs]
    ∧ (generateDiff "y" "z").data
      = ((emittedLines (splitLines ("y" : String).data) (splitLines ("z" : String).data)).map
          (fun l => l ++ ['\n'])).flatten :=
  generateDiff_conflict_block "y" "z" 0 (by decide) (by decide) (by decide)

/-- C9: the number of lines of generateDiff a b is at least the maximum of the
line counts of the two inputs, and at every index where both inputs have a
line and the lines agree, the emitted segment is exactly that shared input
line, verbatim. -/
theorem generateDiff_lineCount_ge (a b : String) :
    max (countLines a) (countLines b) ≤ countLines (generateDiff a b)
    ∧ ∀ i : Nat, i < (splitLines a.data).length → i < (splitLines b.data).length →
        (splitLines a.data).getD i [] = (splitLines b.data).getD i [] →
        segLines (splitLines a.data) (splitLines b.data) i
          = [(splitLines b.data).getD i []] := by
  constructor
  · have hd : (generateDiff a b).data
        = ((emittedLines (splitLines a.data) (splitLines b.data)).map
            (fun l => l ++ ['\n'])).flatten := generateDiffL_eq_emitted a.data b.data
    have hs := splitLines_flattenNl _ (emittedLines_no_newline a.data b.data)
    have hcount : countLines (generateDiff a b)
        = (emittedLines (splitLines a.data) (splitLines b.data)).length + 1 := by
      show (splitLines (generateDiff a b).data).length = _
      rw [hd, hs, List.length_append]
      rfl
    rw [hcount]
    have hlen := length_emittedLines (splitLines a.data) (splitLines b.data)
    have hca : countLines a = (splitLines a.data).length := rfl
    have hcb : countLines b = (splitLines b.data).length := rfl
    omega
  · intro i h1 h2 he
    simp only [segLines]
    rw [if_neg (Nat.not_le.mpr h1), if_neg (Nat.not_le.mpr h2), if_pos he]

/-- C9 witness: at index 0 both inputs hold the line x, emitted verbatim. -/
theorem generateDiff_lineCount_ge_witness :
    segLines (splitLines ("x\ny" : String).data) (splitLines ("x\nz" : String).data) 0
      = [(splitLines ("x\nz" : String).data).getD 0 []] :=
  (generateDiff_lineCount_ge "x\ny" "x\nz").2 0 (by decide) (by decide) (by decide)


theorem fileChanges_foldl_append (changes : List RawChange) (acc : List FileChange) :
    changes.foldl fileChangesStep acc = acc ++ changes.filterMap classifySpec := by
  induction changes generalizing acc with
  | nil => simp
  | cons c rest ih =>
    rw [List.foldl_cons, List.filterMap_cons]
    cases hc : c.action with
    | none => simp [fileChangesStep, classifySpec, hc, ih]
    | some a => cases a <;> simp [fileChangesStep, classifySpec, hc, ih]

/-- C3 counterexample: GetModifiedFiles invoked with no repository bound does
not return the not-initialized error: the source dereferences the nil
repository pointer, a panic. -/
theorem getModifiedFiles_uninitialized_cex :
    Control.GetModifiedFiles ⟨none⟩ "a" "b" ≠ Res.err .notInitialized
    ∧ Control.GetModifiedFiles ⟨none⟩ "a" "b" = Res.panicked := by
  exact ⟨by decide, rfl⟩

/-- C3 (amended): with no repository bound, the branch-listing operations and
GetAllChangedFiles/GetFileChanges return the distinct not-initialized error,
but GetModifiedFiles, DiffSpecificFile and DownloadModifiedFiles perform no
such check and dereference the nil repository handle, a run-time panic. -/
theorem uninitialized_behaviour (branchName branchBase fileName destDir : String) (fs : FS) :
    Control.ListBranches ⟨none⟩ = Res.err .notInitialized
    ∧ Control.ListAllBranches ⟨none⟩ = Res.err .notInitialized
    ∧ Control.ListRemoteBranches ⟨none⟩ = Res.err .notInitialized
    ∧ Control.ListLocalBranches ⟨none⟩ = Res.err .notInitialized
    ∧ Control.GetAllChangedFiles ⟨none⟩ branchName branchBase = Res.err .notInitialized
    ∧ Control.GetFileChanges ⟨none⟩ branchName branchBase = Res.err .notInitialized
    ∧ Control.GetModifiedFiles ⟨none⟩ branchName branchBase = Res.panicked
    ∧ Control.DiffSpecificFile ⟨none⟩ branchName branchBase fileName = Res.panicked
    ∧ Control.DownloadModifiedFiles ⟨none⟩ branchName branchBase destDir fs = DlRes.panicked :=
  ⟨rfl, rfl, rfl, rfl, rfl, rfl, rfl, rfl, rfl⟩

/-- C6: the classification loop of GetFileChanges maps Insert to added with
the new path, Modify to modified with the new path and Delete to deleted with
the old path, and silently skips records whose action cannot be determined:
it equals filterMap of the classification rule as the specification words it. -/
theorem fileChangesLoop_eq_filterMap (changes : List RawChange) :
    fileChangesLoop changes = changes.filterMap classifySpec := by
  rw [fileChangesLoop, fileChanges_foldl_append, List.nil_append]

theorem modifiedFiles_foldl_append (changes : List RawChange) (acc : List String) :
    changes.foldl modifiedFilesStep acc
      = acc ++ changes.filterMap
          (fun c => match c.action with
            | some .Insert => some c.toName
            | some .Modify => some c.toName
            | _ => none) := by
  induction changes generalizing acc with
  | nil => simp
  | cons c rest ih =>
    rw [List.foldl_cons, List.filterMap_cons]
    cases hc : c.action with
    | none => simp [modifiedFilesStep, hc, ih]
    | some a => cases a <;> simp [modifiedFilesStep, hc, ih]

theorem allChangedFiles_foldl_append (changes : List RawChange) (acc : List String) :
    changes.foldl allChangedFilesStep acc
      = acc ++ changes.filterMap
          (fun c => match c.action with
            | some .Insert => some c.toName
            | some .Modify => some c.toName
            | some .Delete => some c.fromName
            | none => none) := by
  induction changes generalizing acc with
  | nil => simp
  | cons c rest ih =>
    rw [List.foldl_cons, List.filterMap_cons]
    cases hc : c.action with
    | none => simp [allChangedFilesStep, hc, ih]
    | some a => cases a <;> simp [allChangedFilesStep, hc, ih]

theorem modifiedFilesLoop_eq_filtered (changes : List RawChange) :
    modifiedFilesLoop changes
      = ((fileChangesLoop changes).filter
          (fun fc => fc.Action == "added" || fc.Action == "modified")).map
            (fun fc => fc.Path) := by
  rw [fileChangesLoop, fileChanges_foldl_append, List.nil_append,
    modifiedFilesLoop, modifiedFiles_foldl_append, List.nil_append]
  induction changes with
  | nil => simp
  | cons c rest ih =>
    rw [List.filterMap_cons, List.filterMap_cons]
    cases hc : c.action with
    | none => simp [classifySpec, hc, ih]
    | some a => cases a <;> simp [classifySpec, hc, ih]

theorem allChangedFilesLoop_eq_paths (changes : List RawChange) :
    allChangedFilesLoop changes = (fileChangesLoop changes).map (fun fc => fc.Path) := by
  rw [fileChangesLoop, fileChanges_foldl_append, List.nil_append,
    allChangedFilesLoop, allChangedFiles_foldl_append, List.nil_append]
  induction changes with
  | nil => simp
  | cons c rest ih =>
    rw [List.filterMap_cons, List.filterMap_cons]
    cases hc : c.action with
    | none => simp [classifySpec, hc, ih]
    | some a => cases a <;> simp [classifySpec, hc, ih]

/-- C7: for the same bound repository and the same two branches the query
shapes agree on classification: GetModifiedFiles returns exactly the paths of
the added-or-modified GetFileChanges entries, and GetAllChangedFiles returns
exactly the paths of all GetFileChanges entries, in the same order; the
error outcomes coincide as well. -/
theorem query_shapes_agree (repo : Repo) (branchName branchBase : String) :
    Control.GetModifiedFiles ⟨some repo⟩ branchName branchBase
      = Res.map
          (fun fcs => (fcs.filter
            (fun fc => fc.Action == "added" || fc.Action == "modified")).map
              (fun fc => fc.Path))
          (Control.GetFileChanges ⟨some repo⟩ branchName branchBase)
    ∧ Control.GetAllChangedFiles ⟨some repo⟩ branchName branchBase
      = Res.map (fun fcs => fcs.map (fun fc => fc.Path))
          (Control.GetFileChanges ⟨some repo⟩ branchName branchBase)  := by
  constructor
  · show (match repo.resolveDiff branchName branchBase with
      | .error er => Res.err er
      | .ok (_, _, changes) => Res.ok (modifiedFilesLoop changes)) = _
    cases hr : repo.resolveDiff branchName branchBase with
    | error er => simp [Control.GetFileChanges, hr, Res.map]
    | ok t =>
      obtain ⟨tT, bT, changes⟩ := t
      simp [Control.GetFileChanges, hr, Res.map, modifiedFilesLoop_eq_filtered]
  · show (match repo.resolveDiff branchName branchBase with
      | .error er => Res.err er
      | .ok (_, _, changes) => Res.ok (allChangedFilesLoop changes)) = _
    cases hr : repo.resolveDiff branchName branchBase with
    | error er => simp [Control.GetFileChanges, hr, Res.map]
    | ok t =>
      obtain ⟨tT, bT, changes⟩ := t
      simp [Control.GetFileChanges, hr, Res.map, allChangedFilesLoop_eq_paths]

theorem diffFileLoop_not_found (targetTree baseTree : Tree) (p : String)
    (changes : List RawChange) (h : ∀ c ∈ changes, c.toName ≠ p) :
    diffFileLoop targetTree baseTree p changes = .error (.fileNotInDiff p) := by
  induction changes with
  | nil => rfl
  | cons c rest ih =>
    have hc : c.toName ≠ p := h c (List.mem_cons_self c rest)
    have hrest : ∀ x ∈ rest, x.toName ≠ p :=
      fun x hx => h x (List.mem_cons.mpr (Or.inr hx))
    cases ha : c.action with
    | none =>
      simp only [diffFileLoop, ha]
      exact ih hrest
    | some a =>
      simp only [diffFileLoop, ha]
      rw [if_pos hc]
      exact ih hrest

/-- The loop of DiffSpecificFile behaves on the whole change list as it does
on the singleton holding the first record whose action is determinable and
whose new-side name matches. -/
theorem diffFileLoop_found (targetTree baseTree : Tree) (p : String)
    (changes : List RawChange) (c : RawChange)
    (hf : changes.find? (fun x => x.action.isSome && x.toName == p) = some c) :
    diffFileLoop targetTree baseTree p changes = diffFileLoop targetTree baseTree p [c] := by
  induction changes with
  | nil => simp at hf
  | cons d rest ih =>
    by_cases hp : (d.action.isSome && d.toName == p) = true
    · rw [List.find?_cons_of_pos rest hp] at hf
      injection hf with hf
      subst hf
      obtain ⟨hsome, hbeq⟩ := Bool.and_eq_true_iff.mp hp
      cases ha : d.action with
      | none => rw [ha] at hsome; simp at hsome
      | some a =>
        have hn : d.toName = p := eq_of_beq hbeq
        simp only [diffFileLoop, ha]
        simp only [if_neg (fun hne : d.toName ≠ p => hne hn)]
    · rw [List.find?_cons_of_neg rest hp] at hf
      cases ha : d.action with
      | none =>
        simp only [diffFileLoop, ha]
        exact ih hf
      | some a =>
        have hsome : d.action.isSome = true := by rw [ha]; rfl
        have hbeq : (d.toName == p) = false := by
          cases hb : (d.toName == p) with
          | false => rfl
          | true => exact absurd (by rw [Bool.and_eq_true]; exact ⟨hsome, hb⟩) hp
        have hne : d.toName ≠ p := by
          intro hEq
          rw [hEq] at hbeq
          simp at hbeq
        simp only [diffFileLoop, ha]
        rw [if_pos hne]
        exact ih hf

/-- C5: DiffSpecificFile fails with the file-not-in-diff error when the
requested path occurs in no change record of the two branches, and rejects
with the deleted-or-unchanged error when the change record found for the
path has action Delete. -/
theorem diffSpecificFile_absent_or_deleted
    (repo : Repo) (branchName branchBase fileName : String)
    (targetTree baseTree : Tree) (changes : List RawChange)
    (hres : repo.resolveDiff branchName branchBase
      = .ok (targetTree, baseTree, changes)) :
    ((∀ c ∈ changes, c.toName ≠ fileName ∧ c.fromName ≠ fileName) →
      Control.DiffSpecificFile ⟨some repo⟩ branchName branchBase fileName
        = Res.err (.fileNotInDiff fileName))
    ∧ ∀ c, changes.find? (fun x => x.action.isSome && x.toName == fileName) = some c →
        c.action = some MerkleAction.Delete →
        Control.DiffSpecificFile ⟨some repo⟩ branchName branchBase fileName
          = Res.err .fileDeletedOrUnchanged := by
  constructor
  · intro h
    simp only [Control.DiffSpecificFile, hres]
    rw [diffFileLoop_not_found targetTree baseTree fileName changes
      (fun c hc => (h c hc).1)]
  · intro c hf hd
    simp only [Control.DiffSpecificFile, hres]
    rw [diffFileLoop_found targetTree baseTree fileName changes c hf]
    have hpred : (c.action.isSome && (c.toName == fileName)) = true := by
      have h2 := List.find?_some hf
      exact h2
    have hn : c.toName = fileName := eq_of_beq (Bool.and_eq_true_iff.mp hpred).2
    simp only [diffFileLoop, hd]
    rw [if_neg (fun hne : c.toName ≠ fileName => hne hn), if_pos (by decide)]

/-- C5 witness: on the concrete deleted-file repository, an absent path gives
the file-not-in-diff error and the deleted path gives the
deleted-or-unchanged error. -/
theorem diffSpecificFile_absent_or_deleted_witness :
    Control.DiffSpecificFile ⟨some repoDeleted⟩ "t" "b" "absent.txt"
      = Res.err (.fileNotInDiff "absent.txt")
    ∧ Control.DiffSpecificFile ⟨some repoDeleted⟩ "t" "b" "del.txt"
      = Res.err .fileDeletedOrUnchanged :=
  ⟨(diffSpecificFile_absent_or_deleted repoDeleted "t" "b" "absent.txt"
      treeDeletedTarget treeDeletedBase [⟨"del.txt", "del.txt", some .Delete⟩]
      rfl).1 (by decide),
   (diffSpecificFile_absent_or_deleted repoDeleted "t" "b" "del.txt"
      treeDeletedTarget treeDeletedBase [⟨"del.txt", "del.txt", some .Delete⟩]
      rfl).2 ⟨"del.txt", "del.txt", some .Delete⟩ rfl rfl⟩

/-- C2 counterexample: on the concrete repository where branch t adds
newfile.txt with single-line content x absent from base branch b,
DiffSpecificFile does not return the bare target content with no markers:
the line comes back wrapped in a conflict block whose theirs side is empty. -/
theorem diffSpecificFile_added_cex :
    Control.DiffSpecificFile ⟨some repoAdded⟩ "t" "b" "newfile.txt"
      = Res.ok [("newfile.txt", "<<<<<<< HEAD\nx\n=======\n\n>>>>>>> branch\n")]
    ∧ Control.DiffSpecificFile ⟨some repoAdded⟩ "t" "b" "newfile.txt"
      ≠ Res.ok [("newfile.txt", "x")] := by
  exact ⟨by decide, by decide⟩

/-- C2 (amended): when the target branch adds a file that the base tree lacks
(the raw diff holds an Insert record found for that path), GetFileChanges
classifies the path as added, and DiffSpecificFile succeeds returning
generateDiff of the empty base content against the target content — which
wraps the first target line in a conflict block against an empty theirs side
whenever that first line is non-empty, rather than returning the bare target
content. -/
theorem diffSpecificFile_added_file
    (repo : Repo) (branchName branchBase fileName : String)
    (targetTree baseTree : Tree) (changes : List RawChange) (c : RawChange)
    (targetContent : String)
    (hres : repo.resolveDiff branchName branchBase
      = .ok (targetTree, baseTree, changes))
    (hf : changes.find? (fun x => x.action.isSome && x.toName == fileName) = some c)
    (hi : c.action = some MerkleAction.Insert)
    (hb : baseTree.file fileName = none)
    (ht : targetTree.file fileName = some (some targetContent)) :
    Control.DiffSpecificFile ⟨some repo⟩ branchName branchBase fileName
      = Res.ok [(fileName, generateDiff "" targetContent)]
    ∧ Control.GetFileChanges ⟨some repo⟩ branchName branchBase
      = Res.ok (fileChangesLoop changes)
    ∧ FileChange.mk fileName "added" ∈ fileChangesLoop changes := by
  have hpred : (c.action.isSome && (c.toName == fileName)) = true := by
    have h2 := List.find?_some hf
    exact h2
  have hn : c.toName = fileName := eq_of_beq (Bool.and_eq_true_iff.mp hpred).2
  refine ⟨?_, ?_, ?_⟩
  · simp only [Control.DiffSpecificFile, hres]
    rw [diffFileLoop_found targetTree baseTree fileName changes c hf]
    simp only [diffFileLoop, hi]
    rw [if_neg (fun hne : c.toName ≠ fileName => hne hn),
      if_neg (by decide : ¬(MerkleAction.Insert ≠ .Insert ∧ MerkleAction.Insert ≠ .Modify))]
    simp only [hb, ht]
  · simp only [Control.GetFileChanges, hres]
  · rw [fileChangesLoop, fileChanges_foldl_append, List.nil_append]
    refine List.mem_filterMap.mpr ⟨c, List.mem_of_find?_eq_some hf, ?_⟩
    simp [classifySpec, hi, hn]

/-- C2 witness: the amended statement evaluated on the concrete added-file
repository. -/
theorem diffSpecificFile_added_file_witness :
    Control.DiffSpecificFile ⟨some repoAdded⟩ "t" "b" "newfile.txt"
      = Res.ok [("newfile.txt", generateDiff "" "x")]
    ∧ Control.GetFileChanges ⟨some repoAdded⟩ "t" "b"
      = Res.ok (fileChangesLoop [⟨"", "newfile.txt", some .Insert⟩])
    ∧ FileChange.mk "newfile.txt" "added"
        ∈ fileChangesLoop [⟨"", "newfile.txt", some .Insert⟩] :=
  diffSpecificFile_added_file repoAdded "t" "b" "newfile.txt"
    treeAddedTarget treeAddedBase [⟨"", "newfile.txt", some .Insert⟩]
    ⟨"", "newfile.txt", some .Insert⟩ "x" rfl rfl rfl rfl rfl

/-- Invariant of the download loop: if the accumulated written files are
exactly the accumulated downloaded paths, the same holds of the final result,
whether the loop completes or stops at a failure. -/
theorem downloadLoop_written_eq (targetTree : Tree) (destDir : String) (fs : FS)
    (changes : List RawChange) :
    ∀ (downloaded : List String) (written : List (String × String)),
      written.map Prod.fst = downloaded →
      ((downloadLoop targetTree destDir fs changes downloaded written).2.1).map Prod.fst
        = (downloadLoop targetTree destDir fs changes downloaded written).1 := by
  induction changes with
  | nil =>
    intro dl w h
    exact h
  | cons c rest ih =>
    intro dl w h
    cases ha : c.action with
    | none =>
      simp only [downloadLoop, ha]
      exact ih dl w h
    | some a =>
      simp only [downloadLoop, ha]
      split
      · exact ih dl w h
      · split
        · exact h
        · exact h
        · split
          · exact h
          · split
            · exact h
            · refine ih _ _ ?_
              rw [List.map_append, h]
              rfl

/-- C8: whenever DownloadModifiedFiles returns an error, the partial list of
destination paths it returns alongside the error is exactly the list of
files written before the failure, in order; nothing already written is
rolled back. -/
theorem downloadModifiedFiles_partial
    (repo : Repo) (branchName branchBase destDir : String) (fs : FS)
    (downloaded : List String) (written : List (String × String)) (er : GitError)
    (h : Control.DownloadModifiedFiles ⟨some repo⟩ branchName branchBase destDir fs
          = DlRes.result downloaded written (some er)) :
    written.map Prod.fst = downloaded := by
  cases hr : repo.resolveDiff branchName branchBase with
  | error e =>
    have heq : Control.DownloadModifiedFiles ⟨some repo⟩ branchName branchBase destDir fs
        = DlRes.result [] [] (some e) := by
      simp only [Control.DownloadModifiedFiles, hr]
    rw [heq] at h
    injection h with h1 h2 h3
    subst h1
    subst h2
    rfl
  | ok t =>
    obtain ⟨tT, bT, changes⟩ := t
    rcases hL : downloadLoop tT destDir fs changes [] [] with ⟨d, w, e⟩
    have heq : Control.DownloadModifiedFiles ⟨some repo⟩ branchName branchBase destDir fs
        = DlRes.result d w e := by
      simp only [Control.DownloadModifiedFiles, hr, hL]
    rw [heq] at h
    injection h with h1 h2 h3
    have hinv := downloadLoop_written_eq tT destDir fs changes [] [] rfl
    rw [hL] at hinv
    subst h1
    subst h2
    exact hinv

/-- C8 witness: on the concrete repository where reading bad.txt fails after
a.txt was materialized, the partial list returned with the error names
exactly the file already written. -/
theorem downloadModifiedFiles_partial_witness :
    ([("out/a.txt", "x")] : List (String × String)).map Prod.fst = ["out/a.txt"] :=
  downloadModifiedFiles_partial repoFail "t" "b" "out" fsOk
    ["out/a.txt"] [("out/a.txt", "x")] (.contentError "bad.txt") (by decide)

end Mergecomplex
